import Mathlib

namespace SetTrieSpec

/-- A trie node, translated from `struct Node<K, T>` in `src/lib.rs`:
`children` is the ordered list of `(K, Node<K,T>)` pairs, `leaves` the stored values. -/
inductive Node (K T : Type) : Type where
  | mk (children : List (K × Node K T)) (leaves : List T)

/-- The `children` field of a node. -/
def Node.children {K T : Type} : Node K T → List (K × Node K T)
  | .mk cs _ => cs

/-- The `leaves` field of a node. -/
def Node.leaves {K T : Type} : Node K T → List T
  | .mk _ ls => ls

/-- `Node::new`: a node with no children and no leaves. -/
def Node.new {K T : Type} : Node K T := .mk [] []

mutual

/-- Number of nodes in the subtree rooted at a node (the node itself included). -/
def nodeSize {K T : Type} : Node K T → Nat
  | .mk cs _ => 1 + childrenSize cs

/-- Total number of nodes in a children list. -/
def childrenSize {K T : Type} : List (K × Node K T) → Nat
  | [] => 0
  | (_, c) :: rest => nodeSize c + childrenSize rest

end

/-- Total number of nodes in a worklist of nodes. -/
def stackSize {K T : Type} : List (Node K T) → Nat
  | [] => 0
  | c :: rest => nodeSize c + stackSize rest

theorem stackSize_append {K T : Type} (a b : List (Node K T)) :
    stackSize (a ++ b) = stackSize a + stackSize b := by
  induction a with
  | nil => simp [stackSize]
  | cons c rest ih => simp [stackSize, ih]; omega

theorem stackSize_map_snd {K T : Type} (cs : List (K × Node K T)) :
    stackSize (cs.map Prod.snd) = childrenSize cs := by
  induction cs with
  | nil => simp [stackSize, childrenSize]
  | cons p rest ih => cases p; simp [stackSize, childrenSize, ih]

variable {K T : Type} [LinearOrder K]

/-- Lookup of a child by key. On children lists that are strictly sorted by key
(the invariant maintained by every mutation, cf. `nodeInv`), this first-match
lookup returns exactly the hit of `children.binary_search_by(|(k, _)| k.cmp(key))`
used throughout `src/lib.rs` and `src/entry.rs`. -/
def getChild : List (K × Node K T) → K → Option (Node K T)
  | [], _ => none
  | (k', c) :: rest, k => if k' = k then some c else getChild rest k

/-- Whether some direct child carries the given key; the `is_ok()` of the same
binary search. -/
def containsKey (l : List (K × Node K T)) (k : K) : Bool :=
  (getChild l k).isSome

/-- Replace the (first) child holding key `k`; models the in-place mutation
`node.children[idx].1` after a binary-search hit. -/
def replaceChild : List (K × Node K T) → K → Node K T → List (K × Node K T)
  | [], _, _ => []
  | (k', c') :: rest, k, c =>
    if k' = k then (k', c) :: rest else (k', c') :: replaceChild rest k c

/-- Insert a new child at the sorted position: before the first child with a
strictly greater key. On sorted children without `k` this is the
`children.insert(idx, ...)` at the `Err(idx)` insertion point of the binary
search in `EntryBuilder::or_create` (`src/entry.rs`). -/
def insertChild : List (K × Node K T) → K → Node K T → List (K × Node K T)
  | [], k, c => [(k, c)]
  | (k', c') :: rest, k, c =>
    if k < k' then (k, c) :: (k', c') :: rest else (k', c') :: insertChild rest k c

/-- `EntryBuilder::or_create` (`src/entry.rs`): walk the key sequence, descending
into existing children and inserting missing ones; returns the updated tree
together with the `created` flag (`true` iff some node along the walk was new).
The terminal node of the walk is the node reached by re-walking the keys in the
returned tree (`findNode`). -/
def orCreate : Node K T → List K → Node K T × Bool
  | n, [] => (n, false)
  | .mk cs ls, k :: ks =>
    match getChild cs k with
    | some c =>
      let r := orCreate c ks
      (.mk (replaceChild cs k r.1) ls, r.2)
    | none =>
      let r := orCreate Node.new ks
      (.mk (insertChild cs k r.1) ls, true)

/-- Apply `f` to the node at the end of the key path (the Rust code mutates the
terminal node through the `&mut` reference held by the resolved `Entry`).
If the path is missing the tree is returned unchanged; the callers below only
use it on paths that `orCreate` has just resolved. -/
def modifyAt (f : Node K T → Node K T) : Node K T → List K → Node K T
  | n, [] => f n
  | .mk cs ls, k :: ks =>
    match getChild cs k with
    | some c => .mk (replaceChild cs k (modifyAt f c ks)) ls
    | none => .mk cs ls

/-- `EntryBuilder::find` (`src/entry.rs`): walk the keys without mutating,
short-circuiting to `none` on the first missing key. -/
def findNode : Node K T → List K → Option (Node K T)
  | n, [] => some n
  | n, k :: ks =>
    match getChild n.children k with
    | some c => findNode c ks
    | none => none

/-- `items`: the leaves of the node at the key path, if the whole path exists. -/
def itemsAt (n : Node K T) (ks : List K) : Option (List T) :=
  (findNode n ks).map Node.leaves

/-- `e.node.leaves.extend(vs)` on a node. -/
def appendLeaves (vs : List T) : Node K T → Node K T
  | .mk cs ls => .mk cs (ls ++ vs)

/-- `e.node.leaves.push(v)` on a node. -/
def pushLeaf (v : T) : Node K T → Node K T
  | .mk cs ls => .mk cs (ls ++ [v])

/-- `EntryBuilder::and_extend`: `or_create`, then extend the terminal node's
leaves regardless of the created/existing outcome. -/
def andExtendN (n : Node K T) (ks : List K) (vs : List T) : Node K T :=
  modifyAt (appendLeaves vs) (orCreate n ks).1 ks

/-- `EntryBuilder::and_insert`: `or_create`, then push onto the terminal node's
leaves regardless of the created/existing outcome. -/
def andInsertN (n : Node K T) (ks : List K) (v : T) : Node K T :=
  modifyAt (pushLeaf v) (orCreate n ks).1 ks

/-- `EntryBuilder::or_extend`: `or_create`, then extend the terminal node's
leaves only in the `Created` outcome. -/
def orExtendN (n : Node K T) (ks : List K) (vs : List T) : Node K T :=
  let r := orCreate n ks
  if r.2 then modifyAt (appendLeaves vs) r.1 ks else r.1

/-- `EntryBuilder::or_insert`: `or_create`, then push onto the terminal node's
leaves only in the `Created` outcome. -/
def orInsertN (n : Node K T) (ks : List K) (v : T) : Node K T :=
  let r := orCreate n ks
  if r.2 then modifyAt (pushLeaf v) r.1 ks else r.1

/-- `SetTrie<K, T>(Node<K, T>)` from `src/lib.rs`. -/
structure SetTrie (K T : Type) where
  root : Node K T

/-- `SetTrie::new`. -/
def SetTrie.new : SetTrie K T := ⟨Node.new⟩

/-- `SetTrie::insert`: `self.entry(keys).and_insert(item)`. -/
def SetTrie.insert (t : SetTrie K T) (ks : List K) (v : T) : SetTrie K T :=
  ⟨andInsertN t.root ks v⟩

/-- `SetTrie::insert_many`: `self.entry(keys).and_extend(items)`. -/
def SetTrie.insertMany (t : SetTrie K T) (ks : List K) (vs : List T) : SetTrie K T :=
  ⟨andExtendN t.root ks vs⟩

mutual

/-- The emission sequence of the `Values` iterator (`src/values.rs`), written as a
worklist recursion: the `current` node's leaves are drained, then its children
are pushed onto the node stack reversed (so they pop in ascending order). -/
def valuesFrom {K T : Type} : Node K T → List (Node K T) → List T
  | n, stack => n.leaves ++ valuesPop (n.children.map Prod.snd ++ stack)
termination_by n stack => 2 * (nodeSize n + stackSize stack)
decreasing_by
  cases n with
  | mk cs ls =>
    simp only [Node.children]
    rw [stackSize_append, stackSize_map_snd]
    simp only [nodeSize]
    omega

/-- The `if let Some(next) = self.nodes.pop()` step of `Values::next`: pop the
next node (stack top at the head) and continue, or end the iteration. -/
def valuesPop {K T : Type} : List (Node K T) → List T
  | [] => []
  | c :: rest => valuesFrom c rest
termination_by l => 2 * stackSize l + 1
decreasing_by
  simp only [stackSize]
  omega

end

/-- `valuesList t` is the full sequence of `Values` (`SetTrie::values`): the
iterator starts with `current = root`, empty node stack, `idx = 0`. -/
def valuesList (t : SetTrie K T) : List T := valuesFrom t.root []

omit [LinearOrder K] in
theorem childrenSize_append (a b : List (K × Node K T)) :
    childrenSize (a ++ b) = childrenSize a + childrenSize b := by
  induction a with
  | nil => simp [childrenSize]
  | cons p rest ih => cases p; simp [childrenSize, ih]; omega

omit [LinearOrder K] in
theorem childrenSize_filter_le (p : (K × Node K T) → Bool) (l : List (K × Node K T)) :
    childrenSize (l.filter p) ≤ childrenSize l := by
  induction l with
  | nil => simp [childrenSize]
  | cons q rest ih =>
    cases q with
    | mk k c =>
      by_cases h : p (k, c)
      · simp [List.filter, h, childrenSize]; omega
      · simp [List.filter, h, childrenSize]; omega

omit [LinearOrder K] in
theorem childrenSize_reverse (l : List (K × Node K T)) :
    childrenSize l.reverse = childrenSize l := by
  induction l with
  | nil => rfl
  | cons q rest ih =>
    cases q; simp [childrenSize, List.reverse_cons, childrenSize_append, ih]; omega

/-- `Node::between_inclusive` (`src/lib.rs`): the contiguous slice of children
whose keys lie in `[lo, hi]`. The Rust code computes the slice bounds with two
binary searches; on sorted children (the maintained invariant) the slice is
exactly the sorted sublist of children with `lo ≤ key ≤ hi`, which is what the
filter computes. -/
def between_inclusive (n : Node K T) (lo hi : K) : List (K × Node K T) :=
  n.children.filter (fun p => decide (lo ≤ p.1) && decide (p.1 ≤ hi))

mutual

/-- `Node::has_descendant` (`src/lib.rs`): a binary search of the direct
children for `key`, else a recursive probe of every child whose key is
strictly below `key` (`take_while(|(k, _)| k < key)`). -/
def hasDescendant : Node K T → K → Bool
  | .mk cs _, key => containsKey cs key || hasDescBelow cs key

/-- The `take_while(k < key).any(has_descendant)` part of `has_descendant`:
children are scanned in order, stopping at the first key not below `key`. -/
def hasDescBelow : List (K × Node K T) → K → Bool
  | [], _ => false
  | (k, c) :: rest, key =>
    if k < key then (hasDescendant c key || hasDescBelow rest key) else false

end

/-- Membership of `k` in the query slice, as decided by `keys.binary_search(k)`
in `Subset::next` (exact on sorted, duplicate-free queries). -/
def memberB (keys : List K) (k : K) : Bool :=
  keys.any (fun q => q = k)

/-- The `current` field computed by `Subset::new` (`src/subset.rs`): for an
empty query it is the root; for a non-empty query it is the root exactly when
the first query key is the key of some direct child of the root, and `None`
otherwise. -/
def subsetNewCurrent (t : SetTrie K T) (keys : List K) : Option (Node K T) :=
  match keys with
  | [] => some t.root
  | first :: _ => if containsKey t.root.children first then some t.root else none

/-- The frontier loop of `Subset::next` (`src/subset.rs`), with the stack's top
at the head. Popping `(k, n)`: if `k` is a query member the iterator descends
(`current = n`), emits its leaves and then extends the stack with
`n.between_inclusive(lo, hi)` reversed (so those children pop in ascending
order); otherwise it extends the stack with `n.between_inclusive(lo, hi)`
un-reversed (those children pop in descending order) without emitting. -/
def subsetFrom (keys : List K) (lo hi : K) : List (K × Node K T) → List T
  | [] => []
  | (k, n) :: rest =>
    if memberB keys k then
      n.leaves ++ subsetFrom keys lo hi (between_inclusive n lo hi ++ rest)
    else
      subsetFrom keys lo hi ((between_inclusive n lo hi).reverse ++ rest)
termination_by l => childrenSize l
decreasing_by
  all_goals
    cases c with
    | mk cs ls =>
      simp only [childrenSize, between_inclusive, Node.children]
      rw [childrenSize_append]
      try rw [childrenSize_reverse]
      have := childrenSize_filter_le
        (fun p : K × Node K T => decide (lo ≤ p.1) && decide (p.1 ≤ hi)) cs
      simp only [nodeSize]
      omega

/-- The emission sequence of the `Subset` iterator (`src/subset.rs`): `new`
computes `current`; the first `next` calls drain `current`'s leaves; further
calls run the frontier loop seeded with `current.between_inclusive(lo, hi)`
pushed in reverse (hence popped ascending), where `lo`/`hi` are the first and
last query keys. With an empty query the `(keys.first(), keys.last())` pattern
fails and only the root's leaves are emitted. -/
def subsetList (t : SetTrie K T) (keys : List K) : List T :=
  match subsetNewCurrent t keys with
  | none => []
  | some cur =>
    match keys.head?, keys.getLast? with
    | some lo, some hi => cur.leaves ++ subsetFrom keys lo hi (between_inclusive cur lo hi)
    | _, _ => cur.leaves

/-- Total number of nodes in a `SuperSet` frontier stack. -/
def tripleStackSize : List (Bool × K × Node K T) → Nat
  | [] => 0
  | (_, _, c) :: rest => nodeSize c + tripleStackSize rest

omit [LinearOrder K] in
theorem tripleStackSize_append (a b : List (Bool × K × Node K T)) :
    tripleStackSize (a ++ b) = tripleStackSize a + tripleStackSize b := by
  induction a with
  | nil => simp [tripleStackSize]
  | cons e rest ih =>
    obtain ⟨b', k, c⟩ := e
    simp [tripleStackSize, ih]
    omega

omit [LinearOrder K] in
theorem tripleStackSize_cand_le (f : K × Node K T → Bool) (cs : List (K × Node K T)) :
    tripleStackSize ((cs.map (fun p => (f p, p))).filter (fun e => e.1))
      ≤ childrenSize cs := by
  induction cs with
  | nil => simp [tripleStackSize, childrenSize]
  | cons p rest ih =>
    obtain ⟨k, c⟩ := p
    by_cases h : f (k, c)
    · simp only [List.map, List.filter, h, tripleStackSize, childrenSize]
      omega
    · simp only [List.map, List.filter, h, childrenSize]
      omega

omit [LinearOrder K] in
theorem tripleStackSize_true_map (cs : List (K × Node K T)) :
    tripleStackSize (cs.map (fun p => (true, p.1, p.2))) = childrenSize cs := by
  induction cs with
  | nil => simp [tripleStackSize, childrenSize]
  | cons p rest ih =>
    obtain ⟨k, c⟩ := p
    simp [tripleStackSize, childrenSize, ih]

/-- The candidate condition of `SuperSet::next` (`src/superset.rs`): a child
`(k, n)` of the current node is kept on the frontier iff
`(n.has_descendant(first) || k == first || encountered_first) &&
 (k <= first || encountered_first)`. -/
def superCand (first : K) (ef : Bool) (k : K) (n : Node K T) : Bool :=
  (hasDescendant n first || decide (k = first) || ef) && (decide (k ≤ first) || ef)

mutual

/-- The non-empty-query loop of `SuperSet::next` (`src/superset.rs`).
`ef`/`issup` are the `encountered_first`/`is_superset` flags of the current
node; leaves are emitted only while `is_superset` holds. The current node's
children are mapped to `(candidate, key, node)`, filtered to candidates, and
pushed reversed (hence popped ascending). -/
def superFrom (keys : List K) (first last : K) :
    Bool → Bool → Node K T → List (Bool × K × Node K T) → List T
  | ef, issup, n, stack =>
    (if issup then n.leaves else []) ++
      superPop keys first last issup
        (((n.children.map (fun p => (superCand first ef p.1 p.2, p))).filter
          (fun e => e.1)) ++ stack)
termination_by ef issup n stack => 2 * (nodeSize n + tripleStackSize stack)
decreasing_by
  cases n with
  | mk cs ls =>
    simp only [Node.children]
    rw [tripleStackSize_append]
    have h3 : tripleStackSize
        ((cs.map (fun p => (superCand first ef p.1 p.2, p))).filter (fun e => e.1))
        ≤ childrenSize cs := tripleStackSize_cand_le _ cs
    simp only [nodeSize]
    omega

/-- The `if let Some((b, k, n)) = self.next.pop()` step of `SuperSet::next`:
the popped entry becomes the new current node with `encountered_first` = its
stored flag and `is_superset = (k >= last) || is_superset` of the node that
was current at pop time. -/
def superPop (keys : List K) (first last : K) :
    Bool → List (Bool × K × Node K T) → List T
  | _, [] => []
  | issup, (b, k, c) :: rest =>
    superFrom keys first last b (decide (last ≤ k) || issup) c rest
termination_by issup l => 2 * tripleStackSize l + 1
decreasing_by
  simp only [tripleStackSize]
  omega

end

mutual

/-- The empty-query branch of `SuperSet::next` (`src/superset.rs`): every child
is pushed as a candidate with both flags true, so every node's leaves are
emitted in DFS pre-order. -/
def superEmptyFrom : Node K T → List (Bool × K × Node K T) → List T
  | n, stack => n.leaves ++ superEmptyPop ((n.children.map (fun p => (true, p.1, p.2))) ++ stack)
termination_by n stack => 2 * (nodeSize n + tripleStackSize stack)
decreasing_by
  cases n with
  | mk cs ls =>
    simp only [Node.children]
    rw [tripleStackSize_append]
    have h3 := tripleStackSize_true_map (K := K) (T := T) cs
    simp only [nodeSize]
    omega

/-- The pop step of the empty-query branch: `self.current = (b, true, n)`. -/
def superEmptyPop : List (Bool × K × Node K T) → List T
  | [] => []
  | (_, _, c) :: rest => superEmptyFrom c rest
termination_by l => 2 * tripleStackSize l + 1
decreasing_by
  simp only [tripleStackSize]
  omega

end

/-- The emission sequence of the `SuperSet` iterator (`src/superset.rs`).
`SuperSet::new` starts with `current = (keys.is_empty(), keys.is_empty(), root)`
and `idx = 0` for an empty query / `idx = root.leaves.len()` otherwise; for a
non-empty query `is_superset` starts false so no root leaf is emitted either
way, and the `(keys.first(), keys.last())` pattern selects the branch. -/
def supersetList (t : SetTrie K T) (keys : List K) : List T :=
  match keys.head?, keys.getLast? with
  | some first, some last => superFrom keys first last false false t.root []
  | _, _ => superEmptyFrom t.root []

/-- The inner worklist loop of `impl Drop for Node` (`src/lib.rs`):
`while let Some(current) = stack.pop()` pops a subtree, pops each of its
children (from the back) onto the stack, and discards it. The result counts
how many subtree roots the loop discards before the worklist is empty. -/
def dropInner : List (Node K T) → Nat
  | [] => 0
  | c :: stack => 1 + dropInner (c.children.map Prod.snd ++ stack)
termination_by l => stackSize l
decreasing_by
  cases c with
  | mk cs ls =>
    simp only [Node.children, stackSize]
    rw [stackSize_append, stackSize_map_snd]
    simp only [nodeSize]
    omega

/-- The outer loop of `impl Drop for Node`: `self.children.pop()` detaches the
last child first, runs the inner loop on it, and repeats; so the children are
processed in reverse order. -/
def dropOuterGo : List (K × Node K T) → Nat
  | [] => 0
  | (_, c) :: rest => dropInner [c] + dropOuterGo rest

/-- Total number of subtree roots discarded when dropping a node:
the outer loop over the node's children, processed back to front. -/
def dropCount (n : Node K T) : Nat :=
  dropOuterGo n.children.reverse

/-- `gtLo lo k`: `k` is strictly above the lower bound (`none` = unbounded,
used for the root, which represents the empty key-set). -/
def gtLo : Option K → K → Bool
  | none, _ => true
  | some l, k => decide (l < k)

mutual

/-- The structural invariant of §3/§4.1 of the spec at a node whose own key is
`lo` (`none` for the root): the children are strictly ascending by key, every
child key is strictly above `lo`, and every child subtree satisfies the same
invariant with its own key as the bound — hence the keys along any
root-to-node path are strictly ascending. -/
def nodeInv : Option K → Node K T → Bool
  | lo, .mk cs _ => chainInv lo cs

/-- `chainInv lo cs`: children keys strictly ascend starting strictly above
`lo`, and each child satisfies `nodeInv` at its own key. -/
def chainInv : Option K → List (K × Node K T) → Bool
  | _, [] => true
  | lo, (k, c) :: rest => gtLo lo k && nodeInv (some k) c && chainInv (some k) rest

end

/-- `ascFrom lo ks`: the caller-supplied key sequence `ks` is strictly
ascending and starts strictly above `lo`. -/
def ascFrom : Option K → List K → Bool
  | _, [] => true
  | lo, k :: ks => gtLo lo k && ascFrom (some k) ks

theorem getChild_replaceChild (l : List (K × Node K T)) (k : K) (m c : Node K T)
    (h : getChild l k = some c) : getChild (replaceChild l k m) k = some m := by
  induction l with
  | nil => simp [getChild] at h
  | cons p rest ih =>
    obtain ⟨k', c'⟩ := p
    by_cases hk : k' = k
    · simp [getChild, replaceChild, hk]
    · simp only [getChild, replaceChild, if_neg hk] at h ⊢
      exact ih h

theorem replaceChild_of_none (l : List (K × Node K T)) (k : K) (m : Node K T)
    (h : getChild l k = none) : replaceChild l k m = l := by
  induction l with
  | nil => simp [replaceChild]
  | cons p rest ih =>
    obtain ⟨k', c'⟩ := p
    by_cases hk : k' = k
    · simp [getChild, hk] at h
    · simp only [getChild, replaceChild, if_neg hk] at h ⊢
      rw [ih h]

theorem replaceChild_self (l : List (K × Node K T)) (k : K) (c : Node K T)
    (h : getChild l k = some c) : replaceChild l k c = l := by
  induction l with
  | nil => simp [replaceChild]
  | cons p rest ih =>
    obtain ⟨k', c'⟩ := p
    by_cases hk : k' = k
    · simp only [getChild, if_pos hk] at h
      cases h
      simp [replaceChild, hk]
    · simp only [getChild, replaceChild, if_neg hk] at h ⊢
      rw [ih h]

theorem getChild_insertChild (l : List (K × Node K T)) (k : K) (m : Node K T)
    (h : getChild l k = none) : getChild (insertChild l k m) k = some m := by
  induction l with
  | nil => simp [insertChild, getChild]
  | cons p rest ih =>
    obtain ⟨k', c'⟩ := p
    by_cases hk : k' = k
    · simp [getChild, hk] at h
    · simp only [getChild, if_neg hk] at h
      by_cases hlt : k < k'
      · simp [insertChild, hlt, getChild]
      · simp only [insertChild, if_neg hlt, getChild, if_neg hk]
        exact ih h

/-- `or_create` reports `Existing` exactly when the whole path pre-existed:
its `created` flag is the failure of the non-mutating `find` walk. -/
theorem orCreate_flag (ks : List K) : ∀ n : Node K T,
    (orCreate n ks).2 = (findNode n ks).isNone := by
  induction ks with
  | nil => intro n; simp [orCreate, findNode]
  | cons k ks ih =>
    intro n
    cases n with
    | mk cs ls =>
      cases hg : getChild cs k with
      | some c => simp [orCreate, findNode, Node.children, hg, ih c]
      | none => simp [orCreate, findNode, Node.children, hg]

/-- In the `Existing` outcome `or_create` leaves the tree untouched. -/
theorem orCreate_existing_id (ks : List K) : ∀ n : Node K T,
    (findNode n ks).isSome → (orCreate n ks).1 = n := by
  induction ks with
  | nil => intro n _; simp [orCreate]
  | cons k ks ih =>
    intro n h
    cases n with
    | mk cs ls =>
      cases hg : getChild cs k with
      | some c =>
        simp only [findNode, Node.children, hg] at h
        simp only [orCreate, hg, ih c h]
        rw [replaceChild_self cs k c hg]
      | none => simp [findNode, Node.children, hg] at h

/-- A path freshly created inside an empty node ends at a node with no leaves. -/
theorem orCreate_fresh_items (ks : List K) :
    itemsAt ((orCreate (Node.new : Node K T) ks).1) ks = some [] := by
  induction ks with
  | nil => simp [orCreate, itemsAt, findNode, Node.new, Node.leaves]
  | cons k ks ih =>
    simp only [Node.new, orCreate, getChild]
    simp only [itemsAt, findNode, Node.children,
      getChild_insertChild ([] : List (K × Node K T)) k _ rfl]
    simpa [itemsAt] using ih

/-- After `or_create` the terminal node of the path always exists, and in the
`Created` outcome it carries no leaves yet. -/
theorem orCreate_find (ks : List K) : ∀ n : Node K T,
    itemsAt ((orCreate n ks).1) ks =
      (if (findNode n ks).isSome then itemsAt n ks else some []) := by
  induction ks with
  | nil => intro n; simp [orCreate, itemsAt, findNode]
  | cons k ks ih =>
    intro n
    cases n with
    | mk cs ls =>
      cases hg : getChild cs k with
      | some c =>
        simp only [orCreate, hg, itemsAt, findNode, Node.children,
          getChild_replaceChild cs k _ c hg]
        simpa [itemsAt] using ih c
      | none =>
        simp only [orCreate, hg, itemsAt, findNode, Node.children,
          getChild_insertChild cs k _ hg]
        simpa [itemsAt, orCreate_fresh_items] using orCreate_fresh_items (T := T) ks

theorem itemsAt_new_getD (ks : List K) :
    (itemsAt (Node.new : Node K T) ks).getD [] = [] := by
  cases ks with
  | nil => simp [itemsAt, findNode, Node.new, Node.leaves]
  | cons k ks => simp [itemsAt, findNode, Node.new, Node.children, getChild]

/-- `and_extend` appends the given values to the terminal node's leaves,
whether the path was created (old leaves `[]`) or pre-existed. -/
theorem andExtend_items (ks : List K) : ∀ (n : Node K T) (vs : List T),
    itemsAt (andExtendN n ks vs) ks = some ((itemsAt n ks).getD [] ++ vs) := by
  induction ks with
  | nil =>
    intro n vs
    cases n with
    | mk cs ls => simp [andExtendN, orCreate, modifyAt, appendLeaves, itemsAt, findNode, Node.leaves]
  | cons k ks ih =>
    intro n vs
    cases n with
    | mk cs ls =>
      cases hg : getChild cs k with
      | some c =>
        have h1 : getChild (replaceChild cs k (orCreate c ks).1) k = some (orCreate c ks).1 :=
          getChild_replaceChild cs k _ c hg
        have h2 := getChild_replaceChild (replaceChild cs k (orCreate c ks).1) k
          (modifyAt (appendLeaves vs) (orCreate c ks).1 ks) (orCreate c ks).1 h1
        simp only [andExtendN, orCreate, hg, modifyAt, h1, itemsAt, findNode, Node.children, h2]
        simpa [andExtendN, itemsAt, findNode, Node.children, hg] using ih c vs
      | none =>
        have h1 : getChild (insertChild cs k (orCreate (Node.new : Node K T) ks).1) k
            = some (orCreate (Node.new : Node K T) ks).1 := getChild_insertChild cs k _ hg
        have h2 := getChild_replaceChild (insertChild cs k (orCreate (Node.new : Node K T) ks).1)
          k (modifyAt (appendLeaves vs) (orCreate (Node.new : Node K T) ks).1 ks)
          (orCreate (Node.new : Node K T) ks).1 h1
        simp only [andExtendN, orCreate, hg, modifyAt, h1, itemsAt, findNode, Node.children, h2]
        have h3 := ih (Node.new : Node K T) vs
        have h4 := itemsAt_new_getD (K := K) (T := T) ks
        simp only [andExtendN, itemsAt] at h3 h4
        simp [h3, h4, findNode, Node.children, hg]

theorem pushLeaf_eq_appendLeaves (v : T) :
    (pushLeaf v : Node K T → Node K T) = appendLeaves [v] := by
  funext n
  cases n with
  | mk cs ls => simp [pushLeaf, appendLeaves]

theorem andInsert_eq_andExtend (n : Node K T) (ks : List K) (v : T) :
    andInsertN n ks v = andExtendN n ks [v] := by
  simp [andInsertN, andExtendN, pushLeaf_eq_appendLeaves]

/-- C6. `insert` / `insert_many` / `and_insert` / `and_extend` always append
the given value(s) at the end of the terminal node's leaf list — with old
leaves `[]` when the path was freshly created — so inserting twice under the
same key-set preserves both values in insertion order. -/
theorem insert_always_appends (t : SetTrie K T) (n : Node K T) (ks : List K)
    (vs : List T) (v v' : T) :
    itemsAt (andExtendN n ks vs) ks = some ((itemsAt n ks).getD [] ++ vs) ∧
    itemsAt (andInsertN n ks v) ks = some ((itemsAt n ks).getD [] ++ [v]) ∧
    itemsAt ((t.insert ks v).root) ks = some ((itemsAt t.root ks).getD [] ++ [v]) ∧
    itemsAt ((t.insertMany ks vs).root) ks = some ((itemsAt t.root ks).getD [] ++ vs) ∧
    itemsAt (andInsertN (andInsertN n ks v) ks v') ks
      = some ((itemsAt n ks).getD [] ++ [v, v']) := by
  refine ⟨andExtend_items ks n vs, ?_, ?_, ?_, ?_⟩
  · rw [andInsert_eq_andExtend]; exact andExtend_items ks n [v]
  · rw [SetTrie.insert, andInsert_eq_andExtend]; exact andExtend_items ks t.root [v]
  · rw [SetTrie.insertMany]; exact andExtend_items ks t.root vs
  · rw [andInsert_eq_andExtend, andInsert_eq_andExtend]
    have h1 := andExtend_items ks n [v]
    have h2 := andExtend_items ks (andExtendN n ks [v]) [v']
    rw [h1] at h2
    simpa using h2

/-- C7. `or_create` walks the keys, descending into existing children and
creating missing ones; the outcome is `Existing` iff the whole path
pre-existed (in which case the tree is untouched); in both outcomes the
entry refers to the terminal node of the path; `or_insert` / `or_extend`
append their default value(s) to that terminal node only in the `Created`
outcome, where the fresh terminal node ends up holding exactly the
default(s). -/
theorem or_create_characterization (n : Node K T) (ks : List K) (v : T) (vs : List T) :
    (orCreate n ks).2 = (findNode n ks).isNone ∧
    (itemsAt ((orCreate n ks).1) ks).isSome = true ∧
    ((findNode n ks).isSome = true → (orCreate n ks).1 = n) ∧
    orInsertN n ks v = (if (findNode n ks).isSome then n else andInsertN n ks v) ∧
    orExtendN n ks vs = (if (findNode n ks).isSome then n else andExtendN n ks vs) ∧
    ((findNode n ks).isNone = true →
      itemsAt (orInsertN n ks v) ks = some [v] ∧ itemsAt (orExtendN n ks vs) ks = some vs) := by
  have hflag := orCreate_flag ks n
  have hfind := orCreate_find ks n
  refine ⟨hflag, ?_, orCreate_existing_id ks n, ?_, ?_, ?_⟩
  · rcases hs : findNode n ks with _ | m
    · rw [hfind]; simp [hs]
    · rw [hfind]; simp [hs, itemsAt]
  · simp only [orInsertN, hflag]
    rcases hs : findNode n ks with _ | m
    · simp [hs, andInsertN]
    · have hid := orCreate_existing_id ks n (by simp [hs])
      simp [hs, hid]
  · simp only [orExtendN, hflag]
    rcases hs : findNode n ks with _ | m
    · simp [hs, andExtendN]
    · have hid := orCreate_existing_id ks n (by simp [hs])
      simp [hs, hid]
  · intro hnone
    have hne : findNode n ks = none := Option.isNone_iff_eq_none.mp hnone
    have hgd : (itemsAt n ks).getD [] = [] := by simp [itemsAt, hne]
    constructor
    · simp only [orInsertN, hflag, hnone, if_true]
      have h5 : itemsAt (andInsertN n ks v) ks = some ((itemsAt n ks).getD [] ++ [v]) := by
        rw [andInsert_eq_andExtend]; exact andExtend_items ks n [v]
      rw [hgd] at h5
      simpa [andInsertN] using h5
    · simp only [orExtendN, hflag, hnone, if_true]
      have h5 := andExtend_items ks n vs
      rw [hgd] at h5
      simpa [andExtendN] using h5

/-- C10. With an empty key sequence `or_create` returns `Existing` referring
to the starting node itself — the loop body never runs, so nothing is ever
`Created` — hence `or_insert`/`or_extend` never append their default, even on
a freshly constructed empty trie. -/
theorem or_create_empty_keys (n : Node K T) (v : T) (vs : List T) :
    orCreate n [] = (n, false) ∧
    orInsertN n [] v = n ∧
    orExtendN n [] vs = n ∧
    orInsertN (SetTrie.new : SetTrie K T).root [] v = Node.new ∧
    itemsAt (orInsertN (Node.new : Node K T) [] v) [] = some [] := by
  cases n with
  | mk cs ls => exact ⟨rfl, rfl, rfl, rfl, rfl⟩

theorem dropInner_eq_stackSize : ∀ l : List (Node K T), dropInner l = stackSize l := by
  intro l
  induction l using dropInner.induct with
  | case1 => simp [dropInner, stackSize]
  | case2 c stack ih =>
    cases c with
    | mk cs ls =>
      rw [dropInner, ih]
      rw [stackSize_append, stackSize_map_snd]
      simp [stackSize, nodeSize, Node.children]
      omega

theorem dropOuterGo_eq : ∀ cs : List (K × Node K T), dropOuterGo cs = childrenSize cs := by
  intro cs
  induction cs with
  | nil => rfl
  | cons p rest ih =>
    obtain ⟨k, c⟩ := p
    rw [dropOuterGo, dropInner_eq_stackSize]
    simp [stackSize, childrenSize, ih]

/-- C9. The explicit-worklist teardown of `impl Drop for Node` terminates with
an empty worklist after detaching every proper descendant of the dropped node
exactly once: the number of subtrees popped and discarded is the subtree's
node count minus one (the root itself is not popped). The model is the
worklist recursion itself — each step pops one subtree and pushes only its
children, never re-entering a detached node, so the call depth of the Rust
loop stays constant instead of following the tree depth. -/
theorem drop_detaches_every_node (n : Node K T) : dropCount n + 1 = nodeSize n := by
  cases n with
  | mk cs ls =>
    rw [dropCount, nodeSize]
    simp only [Node.children]
    rw [dropOuterGo_eq, childrenSize_reverse]
    omega

/-- C5. `subsets` with an empty query emits exactly the root node's own
leaves: `Subset::new` keeps `current = root`, and after the leaves are
drained the `(keys.first(), keys.last())` pattern fails, so no child is ever
pushed on the frontier and the iterator ends. -/
theorem subsets_empty_query_eq_root_leaves (t : SetTrie K T) :
    subsetList t [] = t.root.leaves := by
  simp [subsetList, subsetNewCurrent]

theorem nodeSize_pos (n : Node K T) : 1 ≤ nodeSize n := by
  cases n with
  | mk cs ls => simp [nodeSize]

theorem superEmptyFrom_eq_valuesFrom (m : Nat) :
    (∀ (n : Node K T) (stack : List (Bool × K × Node K T)),
      2 * (nodeSize n + tripleStackSize stack) ≤ m →
      superEmptyFrom n stack = valuesFrom n (stack.map (fun e => e.2.2))) ∧
    (∀ l : List (Bool × K × Node K T),
      2 * tripleStackSize l + 1 ≤ m →
      superEmptyPop l = valuesPop (l.map (fun e => e.2.2))) := by
  induction m with
  | zero =>
    constructor
    · intro n stack h
      have := nodeSize_pos n
      omega
    · intro l h
      omega
  | succ m ih =>
    constructor
    · intro n stack hle
      cases n with
      | mk cs ls =>
        rw [superEmptyFrom, valuesFrom]
        simp only [Node.leaves, Node.children]
        have hmap : ((cs.map (fun p : K × Node K T => (true, p.1, p.2)) ++ stack).map
            (fun e : Bool × K × Node K T => e.2.2))
            = cs.map Prod.snd ++ stack.map (fun e => e.2.2) := by
          simp
        have hsz : 2 * tripleStackSize
            (cs.map (fun p : K × Node K T => (true, p.1, p.2)) ++ stack) + 1 ≤ m := by
          rw [tripleStackSize_append, tripleStackSize_true_map]
          simp only [nodeSize] at hle
          omega
        rw [ih.2 _ hsz, hmap]
    · intro l hle
      cases l with
      | nil => simp only [superEmptyPop, List.map_nil, valuesPop]
      | cons e rest =>
        obtain ⟨b, k, c⟩ := e
        rw [superEmptyPop]
        have hsz : 2 * (nodeSize c + tripleStackSize rest) ≤ m := by
          simp only [tripleStackSize] at hle
          omega
        rw [ih.1 c rest hsz]
        simp only [List.map_cons, valuesPop]

/-- C4. A superset query with the empty query sequence emits exactly the same
value sequence as full enumeration (`SetTrie::values`): the empty-query
branch of `SuperSet::next` pushes every child with both flags true and visits
nodes in the same DFS pre-order as `Values::next`. -/
theorem supersets_empty_query_eq_values (t : SetTrie K T) :
    supersetList t [] = valuesList t := by
  rw [supersetList, valuesList]
  simpa using (superEmptyFrom_eq_valuesFrom (2 * nodeSize t.root)).1 t.root []
    (by simp [tripleStackSize])

theorem getChild_chainInv (cs : List (K × Node K T)) (k : K) (c : Node K T) :
    ∀ lo, chainInv lo cs = true → getChild cs k = some c → nodeInv (some k) c = true := by
  induction cs with
  | nil => intro lo _ hg; simp [getChild] at hg
  | cons p rest ih =>
    obtain ⟨k', c'⟩ := p
    intro lo hc hg
    simp only [chainInv, Bool.and_eq_true] at hc
    by_cases hk : k' = k
    · simp only [getChild, if_pos hk] at hg
      cases hg
      rw [← hk]
      exact hc.1.2
    · simp only [getChild, if_neg hk] at hg
      exact ih (some k') hc.2 hg

theorem chainInv_replaceChild (cs : List (K × Node K T)) (k : K) (c' : Node K T) :
    ∀ lo, chainInv lo cs = true → nodeInv (some k) c' = true →
      chainInv lo (replaceChild cs k c') = true := by
  induction cs with
  | nil => intro lo hc _; simpa [replaceChild] using hc
  | cons p rest ih =>
    obtain ⟨k', c₀⟩ := p
    intro lo hc hn
    simp only [chainInv, Bool.and_eq_true] at hc
    by_cases hk : k' = k
    · simp only [replaceChild, if_pos hk, chainInv, Bool.and_eq_true]
      exact ⟨⟨hc.1.1, by rw [hk]; exact hn⟩, hc.2⟩
    · simp only [replaceChild, if_neg hk, chainInv, Bool.and_eq_true]
      exact ⟨hc.1, ih (some k') hc.2 hn⟩

theorem chainInv_insertChild (cs : List (K × Node K T)) (k : K) (c' : Node K T) :
    ∀ lo, chainInv lo cs = true → getChild cs k = none → gtLo lo k = true →
      nodeInv (some k) c' = true → chainInv lo (insertChild cs k c') = true := by
  induction cs with
  | nil =>
    intro lo _ _ hlo hn
    simp [insertChild, chainInv, hlo, hn]
  | cons p rest ih =>
    obtain ⟨k₀, c₀⟩ := p
    intro lo hc hg hlo hn
    simp only [chainInv, Bool.and_eq_true] at hc
    by_cases hk : k₀ = k
    · simp [getChild, if_pos hk] at hg
    · simp only [getChild, if_neg hk] at hg
      by_cases hlt : k < k₀
      · simp only [insertChild, if_pos hlt, chainInv, Bool.and_eq_true]
        refine ⟨⟨hlo, hn⟩, ⟨⟨?_, hc.1.2⟩, hc.2⟩⟩
        simp [gtLo, hlt]
      · have hgt : k₀ < k := by
          rcases lt_trichotomy k₀ k with h | h | h
          · exact h
          · exact absurd h hk
          · exact absurd h hlt
        simp only [insertChild, if_neg hlt, chainInv, Bool.and_eq_true]
        refine ⟨hc.1, ih (some k₀) hc.2 hg ?_ hn⟩
        simp [gtLo, hgt]

/-- `or_create` keeps every children list strictly sorted and every
root-to-node key path strictly ascending, provided the supplied key sequence
ascends strictly from the starting node's own key. -/
theorem orCreate_inv (ks : List K) : ∀ (lo : Option K) (n : Node K T),
    nodeInv lo n = true → ascFrom lo ks = true → nodeInv lo ((orCreate n ks).1) = true := by
  induction ks with
  | nil => intro lo n hn _; simpa [orCreate] using hn
  | cons k ks ih =>
    intro lo n hn hks
    cases n with
    | mk cs ls =>
      simp only [ascFrom, Bool.and_eq_true] at hks
      simp only [nodeInv] at hn
      cases hg : getChild cs k with
      | some c =>
        have hc : nodeInv (some k) c = true := getChild_chainInv cs k c lo hn hg
        have hrec := ih (some k) c hc hks.2
        simp only [orCreate, hg, nodeInv]
        exact chainInv_replaceChild cs k _ lo hn hrec
      | none =>
        have hnew : nodeInv (some k) (Node.new : Node K T) = true := by
          simp [Node.new, nodeInv, chainInv]
        have hrec := ih (some k) Node.new hnew hks.2
        simp only [orCreate, hg, nodeInv]
        exact chainInv_insertChild cs k _ lo hn hg hks.1 hrec

theorem nodeInv_appendLeaves (lo : Option K) (vs : List T) (n : Node K T) :
    nodeInv lo (appendLeaves vs n) = nodeInv lo n := by
  cases n with
  | mk cs ls => simp [appendLeaves, nodeInv]

theorem modifyAt_appendLeaves_inv (vs : List T) (ks : List K) :
    ∀ (lo : Option K) (n : Node K T), nodeInv lo n = true →
      nodeInv lo (modifyAt (appendLeaves vs) n ks) = true := by
  induction ks with
  | nil => intro lo n hn; simpa [modifyAt, nodeInv_appendLeaves] using hn
  | cons k ks ih =>
    intro lo n hn
    cases n with
    | mk cs ls =>
      simp only [nodeInv] at hn
      cases hg : getChild cs k with
      | some c =>
        have hc : nodeInv (some k) c = true := getChild_chainInv cs k c lo hn hg
        simp only [modifyAt, hg, nodeInv]
        exact chainInv_replaceChild cs k _ lo hn (ih (some k) c hc)
      | none => simpa [modifyAt, hg, nodeInv] using hn

/-- C8. Every mutation preserves the structural invariant: children lists stay
strictly ascending by key (no duplicate keys), and — provided the supplied key
sequence ascends strictly from the starting node's key (`none` for the root) —
all keys along any root-to-node path stay strictly ascending; the freshly
constructed trie satisfies the invariant to begin with. -/
theorem mutation_preserves_sorted_invariant (lo : Option K) (n : Node K T)
    (ks : List K) (v : T) (vs : List T)
    (hn : nodeInv lo n = true) (hks : ascFrom lo ks = true) :
    nodeInv lo ((orCreate n ks).1) = true ∧
    nodeInv lo (andInsertN n ks v) = true ∧
    nodeInv lo (andExtendN n ks vs) = true ∧
    nodeInv lo (orInsertN n ks v) = true ∧
    nodeInv lo (orExtendN n ks vs) = true ∧
    nodeInv none ((SetTrie.new : SetTrie K T).root) = true := by
  have hor := orCreate_inv ks lo n hn hks
  have hext : nodeInv lo (andExtendN n ks vs) = true :=
    modifyAt_appendLeaves_inv vs ks lo _ hor
  have hins : nodeInv lo (andInsertN n ks v) = true := by
    rw [andInsert_eq_andExtend]
    exact modifyAt_appendLeaves_inv [v] ks lo _ hor
  refine ⟨hor, hins, hext, ?_, ?_, by simp [SetTrie.new, Node.new, nodeInv, chainInv]⟩
  · rw [orInsertN]
    cases hb : (orCreate n ks).2
    · simpa [hb] using hor
    · simp only [hb, if_true]
      simpa [andInsertN] using hins
  · rw [orExtendN]
    cases hb : (orCreate n ks).2
    · simpa [hb] using hor
    · simp only [hb, if_true]
      simpa [andExtendN] using hext

set_option maxRecDepth 10000

/-- The §8 regression trie (the `subsets_small` test of `src/subset.rs`):
`{1,2,3}→a, {1,2}→b, {0,2,4}→c, {0}→d, {0,3}→e, {}→f, {2,3}→g, {2}→h, {5}→i`. -/
def trie8 : SetTrie Nat Char :=
  (((((((((SetTrie.new).insert [1, 2, 3] 'a').insert [1, 2] 'b').insert [0, 2, 4] 'c').insert
    [0] 'd').insert [0, 3] 'e').insert [] 'f').insert [2, 3] 'g').insert [2] 'h').insert [5] 'i'

/-- The literal node tree that building `trie8` produces. -/
def trie8Node : Node Nat Char :=
  .mk [(0, .mk [(2, .mk [(4, .mk [] ['c'])] []), (3, .mk [] ['e'])] ['d']),
       (1, .mk [(2, .mk [(3, .mk [] ['a'])] ['b'])] []),
       (2, .mk [(3, .mk [] ['g'])] ['h']),
       (5, .mk [] ['i'])] ['f']

theorem trie8_eq : trie8 = ⟨trie8Node⟩ := by
  simp [trie8, trie8Node, SetTrie.new, SetTrie.insert, Node.new, andInsertN, orCreate,
    getChild, replaceChild, insertChild, modifyAt, pushLeaf]

/-- The trie of the `subsets_small2` regression test of `src/lib.rs`
(github issue 6): the single key-set `{1,2}` holding `'a'`. -/
def subsetBugTrie : SetTrie Nat Char := (SetTrie.new).insert [1, 2] 'a'

/-- A trie holding `'z'` under the single key-set `{2,5}`. -/
def supersetBugTrie : SetTrie Nat Char := (SetTrie.new).insert [2, 5] 'z'

/-- C1 (code bug). On the trie holding only `{1,2}→'a'`, the query
`{0,1,2}` satisfies `keys('a') = {1,2} ⊆ {0,1,2}` and `'a' ∈ values`, yet
`subsets` emits nothing: `Subset::new` binary-searches only the FIRST query
key among the root's direct children and starts with `current = None` when it
is absent (`src/subset.rs` lines 25-40), so the whole claimed equivalence
fails — contradicting the crate documentation ("Iterates over all subsets of
`keys`"), the `subset` property test of `src/subset.rs`, and spec §8. -/
theorem subset_query_misses_contained_value :
    valuesList subsetBugTrie = ['a'] ∧
    itemsAt subsetBugTrie.root [1, 2] = some ['a'] ∧
    ([1, 2] : List Nat) ⊆ [0, 1, 2] ∧
    subsetList subsetBugTrie [0, 1, 2] = [] := by
  have hb : subsetBugTrie = ⟨.mk [(1, .mk [(2, .mk [] ['a'])] [])] []⟩ := by
    simp [subsetBugTrie, SetTrie.new, SetTrie.insert, Node.new, andInsertN, orCreate,
      getChild, replaceChild, insertChild, modifyAt, pushLeaf]
  refine ⟨?_, ?_, by decide, ?_⟩
  · rw [hb]
    simp [valuesList, valuesFrom, valuesPop, Node.children, Node.leaves]
  · rw [hb]
    simp [itemsAt, findNode, getChild, Node.children, Node.leaves]
  · rw [hb]
    simp [subsetList, subsetNewCurrent, containsKey, getChild, Node.children]

/-- C2 (code bug). On the trie holding only `{2,5}→'z'`, the query `{2,3}`
is NOT contained in `{2,5}` (key `3` is missing), yet `supersets` emits
`'z'`: in `SuperSet::next` (`src/superset.rs` line 64) a node becomes
`is_superset` as soon as its key reaches the LAST query key
(`k >= last || is_superset`), without checking that the intermediate query
keys were matched along the path — contradicting the crate documentation
("Iterates over all supersets of `keys`"), the `superset` property test of
`src/superset.rs`, and spec §8. -/
theorem superset_query_emits_non_superset :
    valuesList supersetBugTrie = ['z'] ∧
    itemsAt supersetBugTrie.root [2, 5] = some ['z'] ∧
    ¬ (([2, 3] : List Nat) ⊆ [2, 5]) ∧
    supersetList supersetBugTrie [2, 3] = ['z'] := by
  have hb : supersetBugTrie = ⟨.mk [(2, .mk [(5, .mk [] ['z'])] [])] []⟩ := by
    simp [supersetBugTrie, SetTrie.new, SetTrie.insert, Node.new, andInsertN, orCreate,
      getChild, replaceChild, insertChild, modifyAt, pushLeaf]
  refine ⟨?_, ?_, by decide, ?_⟩
  · rw [hb]
    simp [valuesList, valuesFrom, valuesPop, Node.children, Node.leaves]
  · rw [hb]
    simp [itemsAt, findNode, getChild, Node.children, Node.leaves]
  · rw [hb]
    simp [supersetList, superFrom, superPop, superCand, hasDescendant, hasDescBelow,
      containsKey, getChild, Node.children, Node.leaves]

/-- C3 (counterexample). On the §8 regression trie, `subsets(T, {6})` emits
NOTHING — not `['f']` as the claim states: `Subset::new` finds no root child
keyed `6`, sets `current = None`, and the iterator never yields, matching the
repository's own test `assert_eq!(v.subsets(&[&6]).collect::<Vec<_>>().len(), 0)`. -/
theorem subsets_regression_query_six :
    subsetList trie8 [6] = [] ∧ subsetList trie8 [6] ≠ ['f'] := by
  have h : subsetList trie8 [6] = [] := by
    rw [trie8_eq]
    simp [subsetList, trie8Node, subsetNewCurrent, containsKey, getChild, Node.children]
  exact ⟨h, by simp [h]⟩

/-- C3 (amended). On the §8 regression trie the subset query yields
`['f','b','a','h','g','i']` for `{1,2,3,5}` and `['f','i']` for `{5}` in
exactly that order, but `{6}` yields `[]` (when the first query key labels no
direct child of the root, nothing — not even the root's leaves — is emitted);
in general, whenever the subset query emits anything at all, the root node's
own leaves come first. -/
theorem subsets_regression_order :
    subsetList trie8 [1, 2, 3, 5] = ['f', 'b', 'a', 'h', 'g', 'i'] ∧
    subsetList trie8 [5] = ['f', 'i'] ∧
    subsetList trie8 [6] = [] ∧
    (∀ (K' T' : Type) [LinearOrder K'] (t : SetTrie K' T') (keys : List K'),
      subsetList t keys = [] ∨ ∃ rest, subsetList t keys = t.root.leaves ++ rest) := by
  refine ⟨?_, ?_, ?_, ?_⟩
  · rw [trie8_eq]
    simp [subsetList, trie8Node, subsetNewCurrent, containsKey, getChild, subsetFrom,
      between_inclusive, memberB, Node.children, Node.leaves]
  · rw [trie8_eq]
    simp [subsetList, trie8Node, subsetNewCurrent, containsKey, getChild, subsetFrom,
      between_inclusive, memberB, Node.children, Node.leaves]
  · rw [trie8_eq]
    simp [subsetList, trie8Node, subsetNewCurrent, containsKey, getChild, Node.children]
  · intro K' T' inst t keys
    cases hc : subsetNewCurrent t keys with
    | none => left; simp [subsetList, hc]
    | some cur =>
      have hcur : cur = t.root := by
        cases keys with
        | nil => simpa [subsetNewCurrent] using hc.symm
        | cons k ks =>
          by_cases hk : containsKey t.root.children k
          · simpa [subsetNewCurrent, hk] using hc.symm
          · simp [subsetNewCurrent, hk] at hc
      right
      cases keys with
      | nil =>
        refine ⟨[], ?_⟩
        simp [subsetList, hc, hcur]
      | cons k ks =>
        cases hlast : (k :: ks).getLast? with
        | none => simp at hlast
        | some hi =>
          refine ⟨subsetFrom (k :: ks) k hi (between_inclusive t.root k hi), ?_⟩
          simp only [subsetList, hc, List.head?_cons, hlast, hcur]

/-- Witness for C7 at concrete inputs: on the empty node the path `[1]` is
created, so `or_insert` deposits exactly `['x']` at the terminal node; on a
node that already has the full path `[1]`, `or_create` leaves the tree
untouched. -/
theorem or_create_characterization_witness :
    itemsAt (orInsertN (Node.mk [] [] : Node Nat Char) [1] 'x') [1] = some ['x'] ∧
    (orCreate (Node.mk [(1, Node.mk [] ['y'])] [] : Node Nat Char) [1]).1
      = Node.mk [(1, Node.mk [] ['y'])] [] := by
  constructor
  · exact ((or_create_characterization (Node.mk [] []) [1] 'x' []).2.2.2.2.2
      (by simp [findNode, getChild, Node.children])).1
  · exact (or_create_characterization (Node.mk [(1, Node.mk [] ['y'])] []) [1] 'q' []).2.2.1
      (by simp [findNode, getChild, Node.children])

/-- Witness for C8 at concrete inputs: inserting the ascending path `[1, 3]`
into a fresh node preserves the sorted-children / ascending-path invariant
for every mutation operation. -/
theorem mutation_preserves_sorted_invariant_witness :
    nodeInv none ((orCreate (Node.new : Node Nat Char) [1, 3]).1) = true ∧
    nodeInv none (andInsertN (Node.new : Node Nat Char) [1, 3] 'x') = true ∧
    nodeInv none (andExtendN (Node.new : Node Nat Char) [1, 3] ['y', 'z']) = true ∧
    nodeInv none (orInsertN (Node.new : Node Nat Char) [1, 3] 'x') = true ∧
    nodeInv none (orExtendN (Node.new : Node Nat Char) [1, 3] ['y', 'z']) = true ∧
    nodeInv none ((SetTrie.new : SetTrie Nat Char).root) = true :=
  mutation_preserves_sorted_invariant none Node.new [1, 3] 'x' ['y', 'z']
    (by simp [Node.new, nodeInv, chainInv]) (by simp [ascFrom, gtLo])

end SetTrieSpec
